/-
Verification of the tbp-viz ingestion/analytics core against its specification.

Shallow embedding notes:
* `GameId` mirrors `src/data/mod.rs`'s tagged union (`Igdb(u32)` | `Other(String)` | `None`).
  The `u32` payload is modelled as `Nat` (no arithmetic is performed on ids).
* Calendar dates (`Iso8601Date` wrapping `time::Date`) are modelled as `Int` day
  numbers; `time::Duration` differences of dates become `Int` differences
  (dates are totally ordered and subtraction yields the elapsed duration).
* `f64` rating fields are modelled as `Int`: the analytics only compare and
  sort ratings, and no NaN ever reaches a sort in the claims considered.
* Rust `HashMap`s are modelled as association lists.  Where the source
  iterates a map in unspecified order, the embedding fixes one order (list
  order) and theorems that depend on order quantify over permutations.
* Fallible Rust code (`Result`, panics) becomes `Except`/`Option`: an
  out-of-bounds index or arithmetic-underflow panic is modelled as `none`.
* File and network I/O is modelled by explicit state/oracle parameters.
-/
import Mathlib

namespace TbpViz

/-- `GameId` from `src/data/mod.rs`: `Igdb(u32) | Other(String) | None`. -/
inductive GameId where
  | Igdb : Nat → GameId
  | Other : String → GameId
  | None : GameId
deriving DecidableEq, Repr

/-- `matches!(id, GameId::Igdb(_))` in `Data::new`. -/
def GameId.isIgdb : GameId → Bool
  | .Igdb _ => true
  | _ => false

/-- `Meta` from `src/data/mod.rs`, with `f64` ratings as `Int`, timestamps as
`Int`, and nested sub-record collections flattened to their payloads
(`NameField`/`UrlField` lists become `List String`); fields not inspected by
any analytics function (age ratings, companies, multiplayer modes, platforms)
are carried as opaque payload lists so that records are still compared
field-by-field. -/
structure Meta where
  id : GameId
  age_ratings : List (Nat × Nat × Option String)
  aggregated_rating : Option Int
  aggregated_rating_count : Option Nat
  cover : Option String
  first_release_date : Int
  franchise : Option String
  game_engines : List (String × Option String)
  game_modes : List String
  genres : List String
  involved_companies : List (Bool × Bool × Bool × Bool × String)
  keywords : List String
  multiplayer_modes : List (Bool × Bool × Bool × Bool)
  name : String
  platforms : List String
  player_perspectives : List String
  release_dates : List (Option Int)
  themes : List String
  rating : Option Int
  rating_count : Option Nat
  total_rating : Option Int
  total_rating_count : Option Nat
deriving DecidableEq, Repr

/-- A `List` (one snapshot): ordered `Vec<GameId>`, index 0 = top rank. -/
abbrev Snapshot := List GameId

/-- `Lists`: the `HashMap<Iso8601Date, List>` of snapshots, as an association
list from date (day number) to snapshot.  A well-formed value has no
duplicate dates (`HashMap` keys are unique). -/
abbrev ListsMap := List (Int × Snapshot)

/-- `Metas`: the `HashMap<GameId, Meta>` store, as an association list.  A
well-formed value has no duplicate keys and each key equals the record's
embedded `id` (the map is only ever built keyed by `meta.id`). -/
abbrev MetasMap := List (GameId × Meta)

/-- `HashMap` lookup on an association list (first matching binding; keys of a
well-formed map are unique, so first-vs-last is irrelevant). -/
def assocLookup {α β : Type} [DecidableEq α] (l : List (α × β)) (k : α) : Option β :=
  match l with
  | [] => none
  | p :: rest => if p.1 = k then some p.2 else assocLookup rest k

/-- `Lists::latest`: `iter().max_by_key(|(k, _)| *k)` — the snapshot at the
maximum date (`max_by_key` keeps the last maximal element under ties, which
cannot arise since map keys are unique). -/
def latestOf (lists : ListsMap) : Option Snapshot :=
  (lists.foldl
      (fun acc p =>
        match acc with
        | none => some p
        | some q => if q.1 ≤ p.1 then some p else some q)
      none).map Prod.snd

/-- The `missing_metas` computation in `Data::new` (src/data/mod.rs:281-297):
walk the latest snapshot in order; ids already in the store are skipped;
missing `Igdb` ids are collected; the first missing non-`Igdb` id aborts the
whole computation with an error (`collect::<Result<Vec<_>>>`). -/
def missingMetas (latest : Snapshot) (inStore : GameId → Bool) :
    Except String (List GameId) :=
  match latest with
  | [] => .ok []
  | id :: rest =>
    if inStore id then
      missingMetas rest inStore
    else if id.isIgdb then
      (missingMetas rest inStore).map (id :: ·)
    else
      .error "Missing metadata"

/-- `HashMap::insert` on an association list: replace an existing binding for
the key, else append. -/
def insertPair (m : MetasMap) (p : GameId × Meta) : MetasMap :=
  match m with
  | [] => [p]
  | q :: rest => if q.1 = p.1 then p :: rest else q :: insertPair rest p

/-- `metas.0.extend(new)`: insert every fetched record, overwriting. -/
def extendStore (m : MetasMap) (new : MetasMap) : MetasMap :=
  new.foldl insertPair m

deriving instance DecidableEq for Except

/-- Outcome of the `Data::new` reconciliation pipeline: the final result, the
ids passed to the fetch-batch request (`[]` when no request was issued), and
the number of network calls performed. -/
structure NewOutcome where
  result : Except String MetasMap
  requested : List GameId
  networkCalls : Nat
deriving Repr, DecidableEq

/-- `Data::new` (src/data/mod.rs:267-316), after the store has been loaded:
compute the latest snapshot, run the missing-metadata reconciliation, and only
when something is missing read the two credential environment variables and
issue the single batch fetch.  `env` models `std::env::var`, `fetch` models
`IgdbRequestor::games` (including its implicit login); file writes are elided
(they touch no claim).  Network calls are counted: the only network activity
in the pipeline is the fetch (with its login). -/
def dataNew (lists : ListsMap) (store : MetasMap) (env : String → Option String)
    (fetch : List GameId → Except String MetasMap) : NewOutcome :=
  match latestOf lists with
  | none => ⟨.error "error", [], 0⟩
  | some latest =>
    match missingMetas latest (fun id => (assocLookup store id).isSome) with
    | .error e => ⟨.error e, [], 0⟩
    | .ok missing =>
      if missing.isEmpty then ⟨.ok store, [], 0⟩
      else
        match env "CLIENT_ID" with
        | none => ⟨.error "environment variable CLIENT_ID not found", [], 0⟩
        | some _ =>
          match env "CLIENT_SECRET" with
          | none => ⟨.error "environment variable CLIENT_SECRET not found", [], 0⟩
          | some _ =>
            match fetch missing with
            | .error e => ⟨.error e, missing, 1⟩
            | .ok fetched => ⟨.ok (extendStore store fetched), missing, 1⟩

/-! ### Catalog client retry (`src/request/igdb.rs`) -/

/-- An HTTP request as the retry logic sees it: method, headers, body.  The
retry must replay all three identically. -/
structure HttpRequest where
  method : String
  headers : List (String × String)
  body : String
deriving DecidableEq, Repr

/-- `Request::try_clone`: `Some` iff the body is replayable.  Every request
this program builds carries a byte-buffer body, so the clone always succeeds
and is identical to the original. -/
def tryClone (r : HttpRequest) : Option HttpRequest := some r

/-- Errors out of `IgdbRequestor::request`: a non-success HTTP status
(`error_for_status`) or the `anyhow!("Failed to clone request")` branch. -/
inductive ReqError where
  | status : Nat → ReqError
  | cloneFailed : ReqError
deriving DecidableEq, Repr

/-- `StatusCode::is_success`: 2xx. -/
def isSuccessStatus (s : Nat) : Bool := 200 ≤ s && s ≤ 299

/-- What one call to `IgdbRequestor::request` did: its result (final status),
the requests it executed in order, and the cooldown sleeps (seconds). -/
structure RequestTrace where
  result : Except ReqError Nat
  issued : List HttpRequest
  sleeps : List Nat
deriving DecidableEq, Repr

/-- `IgdbRequestor::request` (igdb.rs:34-51).  The provider's responses to
the first and (potential) second execution are given as statuses `s1`, `s2`.
A success returns at once; a non-429 failure is fatal via `error_for_status`;
a 429 sleeps 60 s and replays the clone exactly once, with `error_for_status`
applied to the second response. -/
def igdbRequest (req : HttpRequest) (s1 s2 : Nat) : RequestTrace :=
  let requestClone := tryClone req
  if isSuccessStatus s1 then ⟨.ok s1, [req], []⟩
  else if s1 ≠ 429 then ⟨.error (.status s1), [req], []⟩
  else
    match requestClone with
    | none => ⟨.error .cloneFailed, [req], []⟩
    | some r2 =>
      if isSuccessStatus s2 then ⟨.ok s2, [req, r2], [60]⟩
      else ⟨.error (.status s2), [req, r2], [60]⟩

/-! ### Resource cache (`src/request/resource.rs`)

URLs are modelled as `List Char` (`&str` is a char sequence; `str::split('/')`
is character-based), bytes as `List Nat`, the on-disk cache as an association
list from path components to bytes. -/

abbrev Chars := List Char

/-- `str::split(sep)` producing all (possibly empty) segments;
`"".split(c)` yields one empty segment. -/
def splitChar (sep : Char) : Chars → List Chars
  | [] => [[]]
  | c :: rest =>
    let r := splitChar sep rest
    if c = sep then [] :: r
    else
      match r with
      | [] => [[c]]
      | s :: ss => (c :: s) :: ss

/-- `ImageSize::Hd.to_string()` = `"t_720p"` (the `t_{}` format). -/
def sizeStr : Chars := "t_720p".toList

/-- Result of the deterministic URL rewriting in `ResourceRequestor::get`:
the derived on-disk path (as components) and the rewritten download URL. -/
structure DerivedResource where
  path : List Chars
  reqUrl : Chars
deriving DecidableEq, Repr

/-- The URL-rewriting prefix of `ResourceRequestor::get` (resource.rs:43-81):
split on `/`; read `url_parts[len-2]` (panic — `none` — when there are fewer
than two segments) to detect the `t_thumb` IGDB convention; for IGDB URLs
force the `.png` extension on the last segment and substitute the size
segment; derive the cache path `res/(size/)?filename` and the
`https:`-prefixed download URL. -/
def deriveResource (url : Chars) : Option DerivedResource :=
  let parts := splitChar '/' url
  match parts.reverse with
  | last :: secondLast :: restRev =>
    let isIgdb := secondLast = "t_thumb".toList
    let filename :=
      if isIgdb then
        let fparts := splitChar '.' last
        match fparts.reverse with
        | _ :: preRev => List.intercalate ['.'] (preRev.reverse ++ ["png".toList])
        | [] => List.intercalate ['.'] fparts
      else last
    let newParts :=
      if isIgdb then restRev.reverse ++ [sizeStr, filename]
      else restRev.reverse ++ [secondLast, filename]
    some
      { path := ["res".toList] ++ (if isIgdb then [sizeStr] else []) ++ [filename]
        reqUrl := "https:".toList ++ List.intercalate ['/'] newParts }
  | _ => none

/-- The on-disk resource cache: derived path ↦ file bytes. -/
abbrev FsState := List (List Chars × List Nat)

/-- `ResourceRequestor::get` (resource.rs:43-99) for the `Hd` size (the only
variant): derive the path; if the file exists return its bytes with no
network access; otherwise download (one network request, counted), propagate
a non-success status with nothing cached, and on success write the bytes to
the derived path before returning them.  Returns `none` on the indexing
panic, otherwise `some (result, new cache state, network request count)`. -/
def resourceGet (fs : FsState) (net : Chars → Except Nat (List Nat)) (url : Chars) :
    Option (Except Nat (List Nat) × FsState × Nat) :=
  match deriveResource url with
  | none => none
  | some d =>
    match assocLookup fs d.path with
    | some bytes => some (.ok bytes, fs, 0)
    | none =>
      match net d.reqUrl with
      | .error s => some (.error s, fs, 1)
      | .ok bytes => some (.ok bytes, (d.path, bytes) :: fs, 1)

/-! ### Metadata store (de)serialization (`src/data/serde_metas.rs`) -/

/-- `serialize`: the store's values, in iteration order, as the persisted
list.  (`HashMap` iteration order is unspecified; theorems about the round
trip therefore quantify over permutations of this list.) -/
def serializeMetas (m : MetasMap) : List Meta := m.map Prod.snd

/-- `deserialize`: read the list and collect `(meta.id, meta)` pairs into the
map, later duplicates overwriting earlier ones (`collect::<HashMap<_, _>>`). -/
def deserializeMetas (l : List Meta) : MetasMap :=
  l.foldl (fun m meta => insertPair m (meta.id, meta)) []

/-! ### Analytics (`src/data/mod.rs`) -/

/-- `RatingKind` from `src/data/mod.rs`. -/
inductive RatingKind where
  | User
  | Critic
  | Total
deriving DecidableEq, Repr

/-- The rating field selected by `igdb_list`'s `match kind`. -/
def ratingOf (kind : RatingKind) (m : Meta) : Option Int :=
  match kind with
  | .User => m.rating
  | .Critic => m.aggregated_rating
  | .Total => m.total_rating

/-- Descending-by-duration order used by `extrema`'s
`sort_by_key(|top| Reverse(top.1))`. -/
def durGe (a b : GameId × Int) : Prop := b.2 ≤ a.2

instance : DecidableRel durGe := fun a b => inferInstanceAs (Decidable (b.2 ≤ a.2))

instance : IsTotal (GameId × Int) durGe := ⟨fun a b => le_total b.2 a.2⟩

instance : IsTrans (GameId × Int) durGe := ⟨fun _ _ _ h1 h2 => le_trans h2 h1⟩

/-- Descending-by-rating order used by `igdb_list`'s
`sort_by(|a, b| b.0.partial_cmp(&a.0).unwrap())`. -/
def ratingGe (a b : Int × Meta) : Prop := b.1 ≤ a.1

instance : DecidableRel ratingGe := fun a b => inferInstanceAs (Decidable (b.1 ≤ a.1))

instance : IsTotal (Int × Meta) ratingGe := ⟨fun a b => le_total b.1 a.1⟩

instance : IsTrans (Int × Meta) ratingGe := ⟨fun _ _ _ h1 h2 => le_trans h2 h1⟩

/-- Ascending-by-difference order used by `igdb_diffs`'s
`sort_by_key(|x| x.0)`. -/
def diffLe (a b : Int × Meta) : Prop := a.1 ≤ b.1

instance : DecidableRel diffLe := fun a b => inferInstanceAs (Decidable (a.1 ≤ b.1))

instance : IsTotal (Int × Meta) diffLe := ⟨fun a b => le_total a.1 b.1⟩

instance : IsTrans (Int × Meta) diffLe := ⟨fun _ _ _ h1 h2 => le_trans h1 h2⟩

/-- `Data::dates`: all snapshot dates, sorted ascending. -/
def datesOf (lists : ListsMap) : List Int :=
  List.insertionSort (· ≤ ·) (lists.map Prod.fst)

/-- `dates.windows(2)`: the adjacent pairs of a list. -/
def windows2 {α : Type} (l : List α) : List (α × α) := l.zip l.tail

/-- `&list[if top { 0 } else { list.len() - 1 }]` on the snapshot at date `d`:
`none` models both the missing-key panic of `self.lists.0[..]` and the
out-of-bounds/underflow panic on an empty snapshot (for the empty list the
bottom index `len - 1` also resolves to an absent position). -/
def extremumAt (lists : ListsMap) (top : Bool) (d : Int) : Option GameId :=
  (assocLookup lists d).bind fun l => if top then l[0]? else l[l.length - 1]?

/-- `extrema.entry(x).and_modify(|e| *e += d).or_insert(d)`: add `d` to the
accumulated duration of `g`, inserting it if absent. -/
def insertAdd (l : List (GameId × Int)) (g : GameId) (d : Int) : List (GameId × Int) :=
  match l with
  | [] => [(g, d)]
  | p :: rest => if p.1 = g then (p.1, p.2 + d) :: rest else p :: insertAdd rest g d

/-- One iteration of `extrema`'s `for period in dates.windows(2)` loop. -/
def stepExtrema (lists : ListsMap) (top : Bool) (acc : Option (List (GameId × Int)))
    (p : Int × Int) : Option (List (GameId × Int)) :=
  acc.bind fun a => (extremumAt lists top p.1).map fun g => insertAdd a g (p.2 - p.1)

/-- `Data::extrema` (mod.rs:326-343): accumulate, over each adjacent pair of
ascending dates, the pair's elapsed time against the item at the extremal
rank of the earlier snapshot, then sort descending by accumulated duration.
`none` models a panic inside the loop. -/
def extrema (lists : ListsMap) (top : Bool) : Option (List (GameId × Int)) :=
  ((windows2 (datesOf lists)).foldl (stepExtrema lists top) (some [])).map
    (List.insertionSort durGe)

/-- `Data::igdb_list` (mod.rs:345-361): the store's values with the selected
rating present, sorted descending by that rating. -/
def igdbList (metas : MetasMap) (kind : RatingKind) : List (Int × Meta) :=
  List.insertionSort ratingGe
    ((metas.map Prod.snd).filterMap fun m => (ratingOf kind m).map ((·, m)))

/-- The `enumerate().map(..).collect::<Option<Vec<_>>>()` body of
`igdb_diffs`: for the metric-ranked metas (from running index `i`), find each
meta's position in the latest snapshot and emit `(position - i, meta)`;
`none` as soon as any meta is absent from the snapshot. -/
def collectDiffs (latest : Snapshot) : Nat → List (Int × Meta) → Option (List (Int × Meta))
  | _, [] => some []
  | i, (_, meta) :: rest =>
    match latest.findIdx? (fun id => id = meta.id) with
    | none => none
    | some pos => (collectDiffs latest (i + 1) rest).map (((pos : Int) - (i : Int), meta) :: ·)

/-- `Data::igdb_diffs` (mod.rs:385-401): signed difference between each
item's position in the latest snapshot and its position in the total-rating
ranking, sorted ascending; `None` when there is no snapshot or when any
ranked item is missing from the latest snapshot. -/
def igdbDiffs (lists : ListsMap) (metas : MetasMap) : Option (List (Int × Meta)) :=
  (latestOf lists).bind fun latest =>
    (collectDiffs latest 0 (igdbList metas .Total)).map (List.insertionSort diffLe)

/-- A concrete metadata record (for instantiating theorems): identity,
release timestamp and total rating chosen, all other fields empty. -/
def mkMeta (id : GameId) (total : Option Int) : Meta :=
  { id := id, age_ratings := [], aggregated_rating := none,
    aggregated_rating_count := none, cover := none, first_release_date := 0,
    franchise := none, game_engines := [], game_modes := [], genres := [],
    involved_companies := [], keywords := [], multiplayer_modes := [],
    name := "", platforms := [], player_perspectives := [], release_dates := [],
    themes := [], rating := none, rating_count := none, total_rating := total,
    total_rating_count := none }

/-! ### Supporting lemmas -/

theorem assocLookup_eq_some_iff {α β : Type} [DecidableEq α] {l : List (α × β)}
    (h : (l.map Prod.fst).Nodup) (k : α) (v : β) :
    assocLookup l k = some v ↔ (k, v) ∈ l := by
  induction l with
  | nil => simp [assocLookup]
  | cons p rest ih =>
    obtain ⟨a, b⟩ := p
    simp only [List.map_cons, List.nodup_cons] at h
    simp only [assocLookup, List.mem_cons, Prod.mk.injEq]
    by_cases hk : a = k
    · subst hk
      rw [if_pos rfl]
      constructor
      · intro hbv
        exact Or.inl ⟨rfl, (Option.some.inj hbv).symm⟩
      · rintro (⟨-, rfl⟩ | hp)
        · rfl
        · exact absurd (List.mem_map_of_mem Prod.fst hp) h.1
    · rw [if_neg hk, ih h.2]
      constructor
      · exact Or.inr
      · rintro (⟨rfl, -⟩ | hp)
        · exact absurd rfl hk
        · exact hp

theorem assocLookup_eq_none_iff {α β : Type} [DecidableEq α] (l : List (α × β)) (k : α) :
    assocLookup l k = none ↔ k ∉ l.map Prod.fst := by
  induction l with
  | nil => simp [assocLookup]
  | cons p rest ih =>
    by_cases hk : p.1 = k
    · simp [assocLookup, hk]
    · simp [assocLookup, hk, ih, Ne.symm hk]

theorem assocLookup_mem_of_key_mem {α β : Type} [DecidableEq α] (l : List (α × β)) (k : α)
    (h : k ∈ l.map Prod.fst) : ∃ v, assocLookup l k = some v ∧ (k, v) ∈ l := by
  induction l with
  | nil => simp at h
  | cons p rest ih =>
    by_cases hk : p.1 = k
    · exact ⟨p.2, by simp [assocLookup, hk], by simp [← hk]⟩
    · simp only [List.map_cons, List.mem_cons] at h
      rcases h with h | h
      · exact absurd h.symm hk
      · obtain ⟨v, hv, hmem⟩ := ih h
        exact ⟨v, by simp [assocLookup, hk, hv], List.mem_cons_of_mem _ hmem⟩

/-! ### C2: catalog client retry policy -/

/-- C2: for every request issued by the catalog client, a 2xx first response
succeeds with exactly one request; on HTTP 429 the identical request is
replayed exactly once after the fixed 60-second cooldown (a 429-then-2xx
sequence succeeds after exactly 2 identical requests, a 429-then-failure
sequence fails after exactly 2 requests, the second error propagating); any
other non-2xx first response is fatal with no retry. -/
theorem igdb_request_retry_policy (req : HttpRequest) (s1 s2 : Nat) :
    (isSuccessStatus s1 = true →
      igdbRequest req s1 s2 = ⟨.ok s1, [req], []⟩) ∧
    (isSuccessStatus s1 = false → s1 ≠ 429 →
      igdbRequest req s1 s2 = ⟨.error (.status s1), [req], []⟩) ∧
    (isSuccessStatus s2 = true →
      igdbRequest req 429 s2 = ⟨.ok s2, [req, req], [60]⟩) ∧
    (isSuccessStatus s2 = false →
      igdbRequest req 429 s2 = ⟨.error (.status s2), [req, req], [60]⟩) := by
  have h429 : isSuccessStatus 429 = false := by decide
  refine ⟨fun h1 => ?_, fun h1 h2 => ?_, fun h2 => ?_, fun h2 => ?_⟩
  · simp [igdbRequest, tryClone, h1]
  · simp [igdbRequest, tryClone, h1, h2]
  · simp [igdbRequest, tryClone, h429, h2]
  · simp [igdbRequest, tryClone, h429, h2]

/-- Witness for C2 at a concrete request: 429-then-200 succeeds with two
identical requests after a 60 s sleep, 429-then-429 fails with two requests,
and 500 fails with one request. -/
theorem igdb_request_retry_policy_witness :
    igdbRequest ⟨"POST", [("Client-ID", "abc")], "fields name; where id=(1);"⟩ 429 200 =
      ⟨.ok 200, [⟨"POST", [("Client-ID", "abc")], "fields name; where id=(1);"⟩,
                 ⟨"POST", [("Client-ID", "abc")], "fields name; where id=(1);"⟩], [60]⟩ ∧
    igdbRequest ⟨"POST", [("Client-ID", "abc")], "fields name; where id=(1);"⟩ 429 429 =
      ⟨.error (.status 429), [⟨"POST", [("Client-ID", "abc")], "fields name; where id=(1);"⟩,
                              ⟨"POST", [("Client-ID", "abc")], "fields name; where id=(1);"⟩], [60]⟩ ∧
    igdbRequest ⟨"POST", [("Client-ID", "abc")], "fields name; where id=(1);"⟩ 500 0 =
      ⟨.error (.status 500), [⟨"POST", [("Client-ID", "abc")], "fields name; where id=(1);"⟩], []⟩ :=
  ⟨(igdb_request_retry_policy _ 429 200).2.2.1 (by decide),
   (igdb_request_retry_policy _ 429 429).2.2.2 (by decide),
   (igdb_request_retry_policy _ 500 0).2.1 (by decide) (by decide)⟩

/-! ### C9: resource URL precondition -/

theorem splitChar_singleton_of_not_mem {sep : Char} {l : Chars} (h : sep ∉ l) :
    splitChar sep l = [l] := by
  induction l with
  | nil => rfl
  | cons c rest ih =>
    simp only [List.mem_cons, not_or] at h
    have hc : ¬(c = sep) := fun hh => h.1 hh.symm
    simp only [splitChar, ih h.2, if_neg hc]

theorem deriveResource_eq_none_iff (url : Chars) :
    deriveResource url = none ↔ (splitChar '/' url).length < 2 := by
  have hlen : (splitChar '/' url).length = (splitChar '/' url).reverse.length :=
    (List.length_reverse _).symm
  simp only [deriveResource]
  rcases h : (splitChar '/' url).reverse with _ | ⟨a, _ | ⟨b, t⟩⟩ <;>
    rw [h] at hlen <;> simp [hlen]

/-- C9: `ResourceRequestor::get` has the unstated precondition that the URL
splits on `/` into at least two segments: with fewer than two segments (in
particular for any URL containing no `/`) the `url_parts[len - 2]` access
panics, and with at least two segments every indexing operation succeeds and
`get` runs to completion (returns a non-panic outcome). -/
theorem resource_get_url_precondition (fs : FsState)
    (net : Chars → Except Nat (List Nat)) (url : Chars) :
    ((splitChar '/' url).length < 2 → resourceGet fs net url = none) ∧
    ('/' ∉ url → resourceGet fs net url = none) ∧
    (2 ≤ (splitChar '/' url).length → ∃ r, resourceGet fs net url = some r) := by
  refine ⟨fun h => ?_, fun h => ?_, fun h => ?_⟩
  · simp only [resourceGet, (deriveResource_eq_none_iff url).2 h]
  · simp only [resourceGet,
      (deriveResource_eq_none_iff url).2 (by simp [splitChar_singleton_of_not_mem h])]
  · rcases hd : deriveResource url with _ | d
    · rw [deriveResource_eq_none_iff] at hd; omega
    · rcases hl : assocLookup fs d.path with _ | bytes
      · rcases hn : net d.reqUrl with s | bytes
        · exact ⟨(.error s, fs, 1), by simp only [resourceGet, hd, hl, hn]⟩
        · exact ⟨(.ok bytes, (d.path, bytes) :: fs, 1), by simp only [resourceGet, hd, hl, hn]⟩
      · exact ⟨(.ok bytes, fs, 0), by simp only [resourceGet, hd, hl]⟩

/-- Witness for C9: the slash-free URL `"abc"` (one segment) panics, while a
concrete IGDB-style URL with seven segments completes. -/
theorem resource_get_url_precondition_witness :
    resourceGet [] (fun _ => .ok [7]) "abc".toList = none ∧
    ∃ r, resourceGet [] (fun _ => .ok [7])
        "//images.igdb.com/igdb/image/upload/t_thumb/abc.jpg".toList = some r :=
  ⟨(resource_get_url_precondition [] (fun _ => .ok [7]) "abc".toList).2.1 (by decide),
   (resource_get_url_precondition [] (fun _ => .ok [7])
      "//images.igdb.com/igdb/image/upload/t_thumb/abc.jpg".toList).2.2 (by decide)⟩

/-! ### C7: resource cache idempotence -/

/-- C7: the cache check precedes network access — when the derived path is
already on disk, `get` returns exactly its stored bytes, performs zero
network requests and leaves the cache unchanged; consequently, after any
successful `get`, a second `get` of the same (size, url) returns
byte-identical bytes with zero network requests (whatever the network would
now answer). -/
theorem resource_cache_idempotence :
    (∀ (fs : FsState) (net : Chars → Except Nat (List Nat)) (url : Chars)
       (d : DerivedResource) (b : List Nat),
       deriveResource url = some d → assocLookup fs d.path = some b →
       resourceGet fs net url = some (.ok b, fs, 0)) ∧
    (∀ (fs : FsState) (net net' : Chars → Except Nat (List Nat)) (url : Chars)
       (b : List Nat) (fs' : FsState) (n : Nat),
       resourceGet fs net url = some (.ok b, fs', n) →
       resourceGet fs' net' url = some (.ok b, fs', 0)) := by
  constructor
  · intro fs net url d b hd hb
    simp only [resourceGet, hd, hb]
  · intro fs net net' url b fs' n h
    rcases hd : deriveResource url with _ | d
    · simp only [resourceGet, hd] at h
      exact Option.noConfusion h
    · simp only [resourceGet, hd] at h
      rcases hl : assocLookup fs d.path with _ | bytes
      · rw [hl] at h
        rcases hn : net d.reqUrl with s | bytes
        · rw [hn] at h; simp at h
        · rw [hn] at h
          simp only [Option.some.injEq, Prod.mk.injEq] at h
          obtain ⟨hres, hfs, -⟩ := h
          cases hres
          subst hfs
          simp [resourceGet, hd, assocLookup]
      · rw [hl] at h
        simp only [Option.some.injEq, Prod.mk.injEq] at h
        obtain ⟨hres, hfs, -⟩ := h
        cases hres
        subst hfs
        simp only [resourceGet, hd, hl]

/-- Witness for C7 at a concrete URL: a cache hit returns the stored bytes
with zero requests, and a `get` after a successful download returns the
downloaded bytes with zero requests even against a changed network. -/
theorem resource_cache_idempotence_witness :
    resourceGet [(["res".toList, "logo.png".toList], [1, 2])] (fun _ => .ok [9])
        "example.com/logo.png".toList =
      some (.ok [1, 2], [(["res".toList, "logo.png".toList], [1, 2])], 0) ∧
    resourceGet [(["res".toList, "logo.png".toList], [9])] (fun _ => .error 404)
        "example.com/logo.png".toList =
      some (.ok [9], [(["res".toList, "logo.png".toList], [9])], 0) :=
  ⟨resource_cache_idempotence.1 [(["res".toList, "logo.png".toList], [1, 2])]
     (fun _ => .ok [9]) "example.com/logo.png".toList
     ⟨["res".toList, "logo.png".toList], "https:example.com/logo.png".toList⟩ [1, 2] rfl rfl,
   resource_cache_idempotence.2 [] (fun _ => .ok [9]) (fun _ => .error 404)
     "example.com/logo.png".toList [9] [(["res".toList, "logo.png".toList], [9])] 1 rfl⟩

/-! ### C1: missing non-catalog metadata is fatal before any network call -/

theorem missingMetas_error_of_mem {latest : Snapshot} {inStore : GameId → Bool} {id : GameId}
    (hmem : id ∈ latest) (hstore : inStore id = false) (higdb : id.isIgdb = false) :
    ∃ e, missingMetas latest inStore = .error e := by
  induction latest with
  | nil => simp at hmem
  | cons hd rest ih =>
    rcases List.mem_cons.1 hmem with rfl | hmem'
    · exact ⟨"Missing metadata", by simp [missingMetas, hstore, higdb]⟩
    · cases hs : inStore hd
      · cases hi : hd.isIgdb
        · exact ⟨"Missing metadata", by simp [missingMetas, hs, hi]⟩
        · obtain ⟨e, he⟩ := ih hmem'
          exact ⟨e, by simp [missingMetas, hs, hi, he, Except.map]⟩
      · obtain ⟨e, he⟩ := ih hmem'
        exact ⟨e, by simp [missingMetas, hs, he]⟩

/-- C1: if the latest snapshot contains an `Other`- or `None`-kind id with no
entry in the store, `Data::new`'s reconciliation fails with an error
immediately: no ids are passed to any fetch and zero network calls are
made. -/
theorem data_new_missing_other_fatal (lists : ListsMap) (store : MetasMap)
    (env : String → Option String) (fetch : List GameId → Except String MetasMap)
    (latest : Snapshot) (id : GameId)
    (hlatest : latestOf lists = some latest) (hmem : id ∈ latest)
    (hstore : assocLookup store id = none) (higdb : id.isIgdb = false) :
    ∃ e, dataNew lists store env fetch = ⟨.error e, [], 0⟩ := by
  have hs : (fun i => (assocLookup store i).isSome) id = false := by
    show (assocLookup store id).isSome = false
    rw [hstore]
    rfl
  obtain ⟨e, he⟩ :=
    @missingMetas_error_of_mem latest (fun i => (assocLookup store i).isSome) id hmem hs higdb
  exact ⟨e, by simp only [dataNew, hlatest, he]⟩

/-- Witness for C1: a latest snapshot holding the unknown `Other`-kind id
`"x"` makes reconciliation fail with no request and no network call. -/
theorem data_new_missing_other_fatal_witness :
    ∃ e, dataNew [(0, [GameId.Other "x"])] [] (fun _ => some "c")
        (fun _ => .error "network") = ⟨.error e, [], 0⟩ :=
  data_new_missing_other_fatal [(0, [GameId.Other "x"])] [] (fun _ => some "c")
    (fun _ => .error "network") [GameId.Other "x"] (GameId.Other "x") rfl
    (by decide) rfl rfl

/-! ### C8: credentials are read only when a fetch is needed -/

/-- Counterexample to C8: with both credential variables absent, a run whose
store already covers the latest snapshot succeeds — the absence of
`CLIENT_ID`/`CLIENT_SECRET` is not a fatal error for every run, because the
variables are only read once missing metadata exists. -/
theorem data_new_no_credentials_ok :
    dataNew [(0, [GameId.Igdb 1])] [(GameId.Igdb 1, mkMeta (GameId.Igdb 1) none)]
        (fun _ => none) (fun _ => .error "network") =
      ⟨.ok [(GameId.Igdb 1, mkMeta (GameId.Igdb 1) none)], [], 0⟩ := by
  decide

/-- C8 (amended): when reconciliation finds missing (catalog-kind) metadata,
the absence of either credential environment variable is a fatal error,
raised before any network call is made; when nothing is missing the
credentials are never read. -/
theorem data_new_missing_credentials_fatal (lists : ListsMap) (store : MetasMap)
    (env : String → Option String) (fetch : List GameId → Except String MetasMap)
    (latest : Snapshot) (missing : List GameId)
    (hlatest : latestOf lists = some latest)
    (hmiss : missingMetas latest (fun i => (assocLookup store i).isSome) = .ok missing)
    (hne : missing ≠ [])
    (henv : env "CLIENT_ID" = none ∨ env "CLIENT_SECRET" = none) :
    ∃ e, dataNew lists store env fetch = ⟨.error e, [], 0⟩ := by
  have hempty : missing.isEmpty = false := by
    cases missing
    · exact absurd rfl hne
    · rfl
  rcases hcid : env "CLIENT_ID" with _ | cid
  · exact ⟨"environment variable CLIENT_ID not found",
      by simp [dataNew, hlatest, hmiss, hempty, hcid]⟩
  · have hcs : env "CLIENT_SECRET" = none := by
      rcases henv with h | h
      · rw [hcid] at h; exact Option.noConfusion h
      · exact h
    exact ⟨"environment variable CLIENT_SECRET not found",
      by simp [dataNew, hlatest, hmiss, hempty, hcid, hcs]⟩

/-- Witness for the amended C8: one missing catalog id plus an empty
environment aborts with zero network calls. -/
theorem data_new_missing_credentials_fatal_witness :
    ∃ e, dataNew [(0, [GameId.Igdb 5])] [] (fun _ => none)
        (fun _ => .ok []) = ⟨.error e, [], 0⟩ :=
  data_new_missing_credentials_fatal [(0, [GameId.Igdb 5])] [] (fun _ => none)
    (fun _ => .ok []) [GameId.Igdb 5] [GameId.Igdb 5] rfl rfl (by decide)
    (Or.inl rfl)

/-! ### C3: reconciliation completeness -/

/-- Counterexample to C3: when the latest snapshot contains the same missing
catalog id twice, that id is passed to the fetch-batch request twice, not
exactly once. -/
theorem igdb_refetch_duplicate_counterexample :
    (dataNew [(0, [GameId.Igdb 1, GameId.Igdb 1])] [] (fun _ => some "c")
        (fun _ => .ok [])).requested.count (GameId.Igdb 1) = 2 := by
  decide

theorem missingMetas_count {latest : Snapshot} {inStore : GameId → Bool}
    {missing : List GameId}
    (h : missingMetas latest inStore = .ok missing) (id : GameId) :
    missing.count id = if inStore id then 0 else latest.count id := by
  induction latest generalizing missing with
  | nil =>
    simp only [missingMetas] at h
    cases h
    simp
  | cons hd rest ih =>
    simp only [missingMetas] at h
    by_cases hs : inStore hd = true
    · rw [if_pos hs] at h
      cases hstore_id : inStore id
      · have hne : (hd == id) = false := by
          refine beq_eq_false_iff_ne.2 fun hh => ?_
          rw [hh] at hs
          rw [hs] at hstore_id
          exact Bool.noConfusion hstore_id
        rw [List.count_cons, hne]
        have := ih h
        rw [hstore_id] at this
        simpa using this
      · have := ih h
        rw [hstore_id] at this
        simpa using this
    · rw [if_neg hs] at h
      cases hi : hd.isIgdb with
      | false =>
        rw [hi] at h
        simp at h
      | true =>
        rw [hi, if_pos rfl] at h
        rcases hm : missingMetas rest inStore with e | m
        · rw [hm] at h; simp [Except.map] at h
        · rw [hm] at h
          simp only [Except.map, Except.ok.injEq] at h
          subst h
          cases hstore_id : inStore id
          · rw [List.count_cons, List.count_cons]
            have := ih hm
            rw [hstore_id] at this
            simp only [Bool.false_eq_true, if_false] at this
            rw [this]
            simp
          · have hne : (hd == id) = false := by
              refine beq_eq_false_iff_ne.2 fun hh => ?_
              rw [hh, hstore_id] at hs
              exact hs rfl
            rw [List.count_cons, hne]
            have := ih hm
            rw [hstore_id] at this
            simpa using this

/-- C3 (amended): provided the latest snapshot contains no duplicate entries,
every catalog-kind (`Igdb`) id of the latest snapshot that is absent from the
store occurs exactly once in the reconciled missing-id list, no `Igdb` id
present in the store occurs in it at all, and (when a fetch happens) that
list is exactly what is passed to the fetch-batch request.  Without the
duplicate-free assumption an id is included once per snapshot occurrence. -/
theorem igdb_reconcile_completeness (lists : ListsMap) (store : MetasMap)
    (env : String → Option String) (fetch : List GameId → Except String MetasMap)
    (latest : Snapshot) (missing : List GameId)
    (hlatest : latestOf lists = some latest)
    (hmiss : missingMetas latest (fun i => (assocLookup store i).isSome) = .ok missing)
    (hnodup : latest.Nodup) :
    (∀ n : Nat,
       (assocLookup store (GameId.Igdb n) = none →
          missing.count (GameId.Igdb n) =
            if GameId.Igdb n ∈ latest then 1 else 0) ∧
       (∀ m, assocLookup store (GameId.Igdb n) = some m →
          missing.count (GameId.Igdb n) = 0)) ∧
    (∀ cid csec, env "CLIENT_ID" = some cid → env "CLIENT_SECRET" = some csec →
       missing ≠ [] → (dataNew lists store env fetch).requested = missing) := by
  constructor
  · intro n
    have hcount := missingMetas_count hmiss (GameId.Igdb n)
    constructor
    · intro hstore
      rw [hstore] at hcount
      simp only [Option.isSome_none, Bool.false_eq_true, if_false] at hcount
      rw [hcount]
      by_cases hmem : GameId.Igdb n ∈ latest
      · rw [if_pos hmem, List.count_eq_one_of_mem hnodup hmem]
      · rw [if_neg hmem, List.count_eq_zero.2 hmem]
    · intro m hstore
      rw [hstore] at hcount
      simpa using hcount
  · intro cid csec hcid hcsec hne
    have hempty : missing.isEmpty = false := by
      cases missing
      · exact absurd rfl hne
      · rfl
    rcases hf : fetch missing with e | fetched
    · simp [dataNew, hlatest, hmiss, hempty, hcid, hcsec, hf]
    · simp [dataNew, hlatest, hmiss, hempty, hcid, hcsec, hf]

/-- Witness for the amended C3: store holds id 1, latest snapshot is
`[1, 2]` with no duplicates — id 2 is requested exactly once, id 1 never. -/
theorem igdb_reconcile_completeness_witness :
    ([GameId.Igdb 2].count (GameId.Igdb 2) = 1 ∧
       [GameId.Igdb 2].count (GameId.Igdb 1) = 0) ∧
    (dataNew [(0, [GameId.Igdb 1, GameId.Igdb 2])]
        [(GameId.Igdb 1, mkMeta (GameId.Igdb 1) none)] (fun _ => some "c")
        (fun _ => .ok [(GameId.Igdb 2, mkMeta (GameId.Igdb 2) none)])).requested =
      [GameId.Igdb 2] := by
  have h := igdb_reconcile_completeness [(0, [GameId.Igdb 1, GameId.Igdb 2])]
    [(GameId.Igdb 1, mkMeta (GameId.Igdb 1) none)] (fun _ => some "c")
    (fun _ => .ok [(GameId.Igdb 2, mkMeta (GameId.Igdb 2) none)])
    [GameId.Igdb 1, GameId.Igdb 2] [GameId.Igdb 2] rfl (by decide) (by decide)
  refine ⟨⟨?_, ?_⟩, h.2 "c" "c" rfl rfl (by decide)⟩
  · have h2 := (h.1 2).1 (by decide)
    rw [if_pos (by decide)] at h2
    exact h2
  · exact (h.1 1).2 (mkMeta (GameId.Igdb 1) none) rfl

/-! ### C6: metadata store round trip -/

theorem insertPair_append (m : MetasMap) (p : GameId × Meta)
    (h : p.1 ∉ m.map Prod.fst) : insertPair m p = m ++ [p] := by
  induction m with
  | nil => rfl
  | cons q rest ih =>
    simp only [List.map_cons, List.mem_cons, not_or] at h
    have hq : ¬(q.1 = p.1) := fun hq => h.1 hq.symm
    simp only [insertPair, if_neg hq, List.cons_append, List.cons.injEq, true_and]
    exact ih h.2

theorem deserializeMetas_foldl (l : List Meta) (acc : MetasMap)
    (h : (acc.map Prod.fst ++ l.map Meta.id).Nodup) :
    l.foldl (fun m meta => insertPair m (meta.id, meta)) acc =
      acc ++ l.map (fun m => (m.id, m)) := by
  induction l generalizing acc with
  | nil => simp
  | cons x l ih =>
    have hx : x.id ∉ acc.map Prod.fst := by
      intro hmem
      rcases List.nodup_append.1 h with ⟨-, -, hdisj⟩
      exact hdisj hmem (by simp)
    rw [List.foldl_cons, insertPair_append acc (x.id, x) hx]
    rw [ih (acc ++ [(x.id, x)]) (by simpa [List.append_assoc] using h)]
    simp

/-- C6: serializing a metadata store (its records, in any order the map might
emit them) and deserializing the result reconstructs a store with the same
key set and the identical record at every key — for every well-formed store
(unique keys, each key the record's embedded identity) and every
serialization order. -/
theorem metas_roundtrip (store : MetasMap) (ser : List Meta)
    (hnodup : (store.map Prod.fst).Nodup)
    (hkey : ∀ p ∈ store, p.1 = p.2.id)
    (hperm : ser.Perm (serializeMetas store)) :
    ((deserializeMetas ser).map Prod.fst).Perm (store.map Prod.fst) ∧
    ∀ k, assocLookup (deserializeMetas ser) k = assocLookup store k := by
  have hids : store.map Prod.fst = (serializeMetas store).map Meta.id := by
    rw [serializeMetas, List.map_map]
    exact List.map_congr_left hkey
  have hserids : (ser.map Meta.id).Perm (store.map Prod.fst) := by
    rw [hids]
    exact hperm.map Meta.id
  have hsernodup : (ser.map Meta.id).Nodup := hserids.nodup_iff.2 hnodup
  have hdeser : deserializeMetas ser = ser.map (fun m => (m.id, m)) := by
    rw [deserializeMetas, deserializeMetas_foldl ser [] (by simpa using hsernodup)]
    rfl
  have hdeserkeys : (deserializeMetas ser).map Prod.fst = ser.map Meta.id := by
    rw [hdeser, List.map_map]
    rfl
  refine ⟨hdeserkeys ▸ hserids, fun k => ?_⟩
  have hdnodup : ((deserializeMetas ser).map Prod.fst).Nodup := by
    rw [hdeserkeys]
    exact hsernodup
  rcases hs : assocLookup store k with _ | v
  · rw [assocLookup_eq_none_iff] at hs ⊢
    rw [hdeserkeys]
    exact fun hmem => hs (hserids.mem_iff.1 hmem)
  · have hmem : (k, v) ∈ store := (assocLookup_eq_some_iff hnodup k v).1 hs
    have hk : k = v.id := hkey (k, v) hmem
    have hvser : v ∈ ser := by
      refine hperm.mem_iff.2 ?_
      rw [serializeMetas]
      exact List.mem_map_of_mem Prod.snd hmem
    have : (k, v) ∈ deserializeMetas ser := by
      rw [hdeser, hk]
      exact List.mem_map_of_mem (fun m => (m.id, m)) hvser
    exact (assocLookup_eq_some_iff hdnodup k v).2 this

/-- Witness for C6: a two-record store serialized in reversed order still
looks up both records (and an absent key) identically after the round
trip. -/
theorem metas_roundtrip_witness :
    assocLookup (deserializeMetas [mkMeta (GameId.Igdb 2) none, mkMeta (GameId.Igdb 1) none])
        (GameId.Igdb 1) =
      assocLookup [(GameId.Igdb 1, mkMeta (GameId.Igdb 1) none),
        (GameId.Igdb 2, mkMeta (GameId.Igdb 2) none)] (GameId.Igdb 1) ∧
    assocLookup (deserializeMetas [mkMeta (GameId.Igdb 2) none, mkMeta (GameId.Igdb 1) none])
        (GameId.Igdb 3) =
      assocLookup [(GameId.Igdb 1, mkMeta (GameId.Igdb 1) none),
        (GameId.Igdb 2, mkMeta (GameId.Igdb 2) none)] (GameId.Igdb 3) :=
  ⟨(metas_roundtrip
      [(GameId.Igdb 1, mkMeta (GameId.Igdb 1) none), (GameId.Igdb 2, mkMeta (GameId.Igdb 2) none)]
      [mkMeta (GameId.Igdb 2) none, mkMeta (GameId.Igdb 1) none]
      (by decide) (by decide) (by decide)).2 (GameId.Igdb 1),
   (metas_roundtrip
      [(GameId.Igdb 1, mkMeta (GameId.Igdb 1) none), (GameId.Igdb 2, mkMeta (GameId.Igdb 2) none)]
      [mkMeta (GameId.Igdb 2) none, mkMeta (GameId.Igdb 1) none]
      (by decide) (by decide) (by decide)).2 (GameId.Igdb 3)⟩

/-! ### C5: rank diffs -/

theorem collectDiffs_eq_none {latest : Snapshot} {r : Int} {meta : Meta}
    (hmiss : meta.id ∉ latest) :
    ∀ {il : List (Int × Meta)}, (r, meta) ∈ il → ∀ i, collectDiffs latest i il = none := by
  intro il
  induction il with
  | nil => intro h; simp at h
  | cons q rest ih =>
    intro hmem i
    obtain ⟨r', m'⟩ := q
    rcases List.mem_cons.1 hmem with heq | hmem'
    · obtain ⟨-, rfl⟩ := Prod.mk.injEq .. ▸ heq
      have hf : latest.findIdx? (fun id => id = meta.id) = none :=
        List.findIdx?_eq_none_iff.2 fun x hx =>
          decide_eq_false fun he => hmiss (he ▸ hx)
      simp [collectDiffs, hf]
    · rcases hf : latest.findIdx? (fun id => id = m'.id) with _ | pos
      · simp [collectDiffs, hf]
      · simp [collectDiffs, hf, ih hmem' (i + 1)]

theorem collectDiffs_eq_some {latest : Snapshot} :
    ∀ (il : List (Int × Meta)) (i : Nat) (out : List (Int × Meta)),
      collectDiffs latest i il = some out →
      out.length = il.length ∧
      ∀ (j : Nat) (r : Int) (meta : Meta), il[j]? = some (r, meta) →
        ∃ pos, latest.findIdx? (fun id => id = meta.id) = some pos ∧
          out[j]? = some ((pos : Int) - ((i + j : Nat) : Int), meta) := by
  intro il
  induction il with
  | nil =>
    intro i out h
    simp only [collectDiffs] at h
    cases h
    exact ⟨rfl, fun j r meta hj => by simp at hj⟩
  | cons q rest ih =>
    intro i out h
    obtain ⟨r', m'⟩ := q
    rcases hf : latest.findIdx? (fun id => id = m'.id) with _ | pos
    · rw [collectDiffs, hf] at h
      exact Option.noConfusion h
    · rw [collectDiffs, hf] at h
      rcases Option.map_eq_some'.1 h with ⟨out', hout', rfl⟩
      obtain ⟨hlen, hidx⟩ := ih (i + 1) out' hout'
      refine ⟨by simp [hlen], fun j r meta hj => ?_⟩
      cases j with
      | zero =>
        rw [List.getElem?_cons_zero] at hj
        obtain ⟨rfl, rfl⟩ := Prod.mk.injEq .. ▸ (Option.some.inj hj)
        refine ⟨pos, hf, ?_⟩
        rw [List.getElem?_cons_zero]
        norm_num
      | succ j =>
        rw [List.getElem?_cons_succ] at hj
        obtain ⟨pos', hpos', hout⟩ := hidx j r meta hj
        refine ⟨pos', hpos', ?_⟩
        rw [List.getElem?_cons_succ, hout]
        congr 2
        omega

/-- The `X`, `Y`, `Z` records of the rank-diff example: total ratings 90, 80,
70, so the metric ranking is `[X, Y, Z]`. -/
def metaX : Meta := mkMeta (GameId.Igdb 1) (some 90)

def metaY : Meta := mkMeta (GameId.Igdb 2) (some 80)

def metaZ : Meta := mkMeta (GameId.Igdb 3) (some 70)

/-- Store for the rank-diff example. -/
def rankStore : MetasMap := [(metaX.id, metaX), (metaY.id, metaY), (metaZ.id, metaZ)]

/-- Snapshot history for the rank-diff example: latest snapshot `[Y, X, Z]`. -/
def rankLists : ListsMap := [(0, [metaY.id, metaX.id, metaZ.id])]

/-- C5: `igdb_diffs` computes, for the item at position `j` of the
total-rating ranking, the signed value (position in latest snapshot − j),
returns the pairs sorted ascending by that value, and returns `None` (not a
partial list) as soon as any metric-ranked item is missing from the latest
snapshot; on the example metric order `[X, Y, Z]` against latest snapshot
`[Y, X, Z]` it yields `[(-1, Y), (0, Z), (1, X)]`. -/
theorem igdb_diffs_spec :
    (∀ (lists : ListsMap) (metas : MetasMap) (latest : Snapshot) (r : Int) (meta : Meta),
       latestOf lists = some latest → (r, meta) ∈ igdbList metas .Total →
       meta.id ∉ latest → igdbDiffs lists metas = none) ∧
    (∀ (lists : ListsMap) (metas : MetasMap) (res : List (Int × Meta)),
       igdbDiffs lists metas = some res →
       res.Sorted diffLe ∧
       ∃ latest, latestOf lists = some latest ∧
         res.length = (igdbList metas .Total).length ∧
         ∀ (j : Nat) (r : Int) (meta : Meta),
           (igdbList metas .Total)[j]? = some (r, meta) →
           ∃ pos, latest.findIdx? (fun id => id = meta.id) = some pos ∧
             ((pos : Int) - (j : Int), meta) ∈ res) ∧
    igdbDiffs rankLists rankStore = some [(-1, metaY), (0, metaZ), (1, metaX)] := by
  refine ⟨?_, ?_, by decide⟩
  · intro lists metas latest r meta hlatest hmem hmiss
    rw [igdbDiffs, hlatest, Option.some_bind, collectDiffs_eq_none hmiss hmem 0]
    rfl
  · intro lists metas res h
    rcases hlatest : latestOf lists with _ | latest
    · rw [igdbDiffs, hlatest] at h
      exact Option.noConfusion h
    · rw [igdbDiffs, hlatest, Option.some_bind] at h
      rcases Option.map_eq_some'.1 h with ⟨out, hout, rfl⟩
      obtain ⟨hlen, hidx⟩ := collectDiffs_eq_some (igdbList metas .Total) 0 out hout
      refine ⟨List.sorted_insertionSort diffLe out, latest, rfl, ?_, ?_⟩
      · rw [List.length_insertionSort, hlen]
      · intro j r meta hj
        obtain ⟨pos, hpos, houtj⟩ := hidx j r meta hj
        refine ⟨pos, hpos, ?_⟩
        have hmem : ((pos : Int) - ((0 + j : Nat) : Int), meta) ∈ out := by
          rcases List.getElem?_eq_some.1 houtj with ⟨hlt, hget⟩
          exact hget ▸ List.getElem_mem hlt
        have : ((pos : Int) - ((0 + j : Nat) : Int), meta) ∈
            List.insertionSort diffLe out :=
          (List.perm_insertionSort diffLe out).mem_iff.2 hmem
        simpa using this

/-- Witness for C5: a ranked record absent from the latest snapshot makes
`igdb_diffs` return `None`. -/
theorem igdb_diffs_spec_witness :
    igdbDiffs [(0, [GameId.Igdb 9])] rankStore = none :=
  igdb_diffs_spec.1 [(0, [GameId.Igdb 9])] rankStore [GameId.Igdb 9] 90 metaX rfl
    (by decide) (by decide)

/-! ### C4 and C10: extrema -/

theorem insertAdd_lookup (l : List (GameId × Int)) (g x : GameId) (d : Int) :
    (assocLookup (insertAdd l g d) x).getD 0 =
      (assocLookup l x).getD 0 + if x = g then d else 0 := by
  induction l with
  | nil =>
    by_cases hxg : x = g
    · subst hxg
      simp [insertAdd, assocLookup]
    · have hgx : ¬(g = x) := fun h => hxg h.symm
      simp [insertAdd, assocLookup, hgx, hxg]
  | cons p rest ih =>
    by_cases hpg : p.1 = g
    · by_cases hpx : p.1 = x
      · have hxg : x = g := hpx ▸ hpg
        simp [insertAdd, assocLookup, hpg, hpx, hxg]
      · have hxg : ¬(x = g) := fun h => hpx (hpg.trans h.symm)
        have hgx : ¬(g = x) := fun h => hxg h.symm
        simp [insertAdd, assocLookup, hpg, hpx, hxg, hgx]
    · by_cases hpx : p.1 = x
      · have hxg : ¬(x = g) := fun h => hpg (hpx.trans h)
        simp [insertAdd, assocLookup, hpg, hpx, hxg]
      · simp [insertAdd, assocLookup, hpg, hpx, ih]

theorem insertAdd_keys_mem (l : List (GameId × Int)) (g x : GameId) (d : Int) :
    x ∈ (insertAdd l g d).map Prod.fst ↔ x ∈ l.map Prod.fst ∨ x = g := by
  induction l with
  | nil => simp [insertAdd]
  | cons p rest ih =>
    by_cases hpg : p.1 = g
    · subst hpg
      simp [insertAdd]
      tauto
    · simp only [insertAdd, if_neg hpg, List.map_cons, List.mem_cons, ih]
      tauto

theorem insertAdd_keys_nodup (l : List (GameId × Int)) (g : GameId) (d : Int)
    (h : (l.map Prod.fst).Nodup) : ((insertAdd l g d).map Prod.fst).Nodup := by
  induction l with
  | nil => simp [insertAdd]
  | cons p rest ih =>
    simp only [List.map_cons, List.nodup_cons] at h
    by_cases hpg : p.1 = g
    · simp only [insertAdd, if_pos hpg, List.map_cons, List.nodup_cons]
      exact ⟨h.1, h.2⟩
    · simp only [insertAdd, if_neg hpg, List.map_cons, List.nodup_cons]
      refine ⟨fun hmem => ?_, ih h.2⟩
      rcases (insertAdd_keys_mem rest g p.1 d).1 hmem with hm | hm
      · exact h.1 hm
      · exact hpg hm

theorem foldl_stepExtrema_none (lists : ListsMap) (top : Bool) (ps : List (Int × Int)) :
    ps.foldl (stepExtrema lists top) none = none := by
  induction ps with
  | nil => rfl
  | cons q ps ih => exact ih

theorem foldl_stepExtrema_fail (lists : ListsMap) (top : Bool) {p : Int × Int}
    (hfail : extremumAt lists top p.1 = none) :
    ∀ (ps : List (Int × Int)), p ∈ ps →
      ∀ acc, ps.foldl (stepExtrema lists top) acc = none := by
  intro ps
  induction ps with
  | nil => intro hp; simp at hp
  | cons q ps ih =>
    intro hp acc
    rcases List.mem_cons.1 hp with rfl | hp'
    · rw [List.foldl_cons]
      have hstep : stepExtrema lists top acc p = none := by
        cases acc with
        | none => rfl
        | some a => simp [stepExtrema, hfail]
      rw [hstep]
      exact foldl_stepExtrema_none lists top ps
    · rw [List.foldl_cons]
      exact ih hp' _

theorem foldl_stepExtrema_some (lists : ListsMap) (top : Bool) :
    ∀ (ps : List (Int × Int)) (a : List (GameId × Int)),
      (∀ p ∈ ps, ∃ g, extremumAt lists top p.1 = some g) →
      ∃ final, ps.foldl (stepExtrema lists top) (some a) = some final ∧
        (∀ x, (assocLookup final x).getD 0 =
          (assocLookup a x).getD 0 +
            ((ps.filter (fun p => extremumAt lists top p.1 = some x)).map
              (fun p => p.2 - p.1)).sum) ∧
        (∀ x, x ∈ final.map Prod.fst ↔
          x ∈ a.map Prod.fst ∨ ∃ p ∈ ps, extremumAt lists top p.1 = some x) ∧
        ((a.map Prod.fst).Nodup → (final.map Prod.fst).Nodup) := by
  intro ps
  induction ps with
  | nil =>
    intro a _
    exact ⟨a, rfl, fun x => by simp, fun x => by simp, id⟩
  | cons q ps ih =>
    intro a hsucc
    obtain ⟨g, hg⟩ := hsucc q (List.mem_cons_self q ps)
    have hstep : stepExtrema lists top (some a) q =
        some (insertAdd a g (q.2 - q.1)) := by
      simp [stepExtrema, hg]
    obtain ⟨final, hfold, hlook, hmem, hnodup⟩ :=
      ih (insertAdd a g (q.2 - q.1)) (fun p hp => hsucc p (List.mem_cons_of_mem q hp))
    refine ⟨final, by rw [List.foldl_cons, hstep]; exact hfold, fun x => ?_,
      fun x => ?_, fun ha => hnodup (insertAdd_keys_nodup a g _ ha)⟩
    · rw [hlook x, insertAdd_lookup]
      by_cases hxg : x = g
      · have hprop : extremumAt lists top q.1 = some x := by rw [hg, hxg]
        rw [List.filter_cons, decide_eq_true hprop, if_pos rfl, List.map_cons,
          List.sum_cons, if_pos hxg]
        ring
      · have hne : extremumAt lists top q.1 ≠ some x := by
          rw [hg]
          exact fun h => hxg (Option.some.inj h).symm
        rw [List.filter_cons, decide_eq_false hne, if_neg hxg]
        simp only [Bool.false_eq_true, if_false]
        ring
    · rw [hmem x, insertAdd_keys_mem]
      have hqx : (extremumAt lists top q.1 = some x) ↔ x = g := by
        rw [hg]
        exact ⟨fun h => (Option.some.inj h).symm, fun h => h ▸ rfl⟩
      simp only [List.mem_cons, exists_eq_or_imp, hqx]
      tauto

/-- C4: `extrema(top)` attributes, for each adjacent pair of ascending
consecutive dates, the elapsed time between the pair's dates to the item at
the extremal rank (rank 0 when `top`, last rank otherwise) of the earlier
snapshot, summing over all pairs; an item appears in the result iff it held
the extremum during some interval (items never at the extremum are absent);
the result is sorted descending by accumulated duration; and on the example
history D1 < D2 < D3 (intervals 1 day and 2 days) with snapshots `[A, B]`,
`[B, A]`, `[A, B]`, `extrema(top := true)` yields `[(B, 2), (A, 1)]`. -/
theorem extrema_spec :
    (∀ (lists : ListsMap) (top : Bool) (res : List (GameId × Int)),
       extrema lists top = some res →
       res.Sorted durGe ∧
       ∀ g : GameId,
         (g ∈ res.map Prod.fst ↔
           ∃ p ∈ windows2 (datesOf lists), extremumAt lists top p.1 = some g) ∧
         ∀ d : Int, (g, d) ∈ res →
           d = (((windows2 (datesOf lists)).filter
                  (fun p => extremumAt lists top p.1 = some g)).map
                 (fun p => p.2 - p.1)).sum) ∧
    extrema [(0, [GameId.Igdb 1, GameId.Igdb 2]), (1, [GameId.Igdb 2, GameId.Igdb 1]),
        (3, [GameId.Igdb 1, GameId.Igdb 2])] true =
      some [(GameId.Igdb 2, 2), (GameId.Igdb 1, 1)] := by
  refine ⟨?_, by decide⟩
  intro lists top res h
  rw [extrema] at h
  rcases Option.map_eq_some'.1 h with ⟨final, hfold, hres⟩
  have hsucc : ∀ p ∈ windows2 (datesOf lists),
      ∃ g, extremumAt lists top p.1 = some g := by
    intro p hp
    rcases hx : extremumAt lists top p.1 with _ | g
    · rw [foldl_stepExtrema_fail lists top hx _ hp (some [])] at hfold
      exact Option.noConfusion hfold
    · exact ⟨g, rfl⟩
  obtain ⟨final', hfold', hlook, hmem, hnodup⟩ :=
    foldl_stepExtrema_some lists top (windows2 (datesOf lists)) [] hsucc
  have hff : final' = final := Option.some.inj (hfold'.symm.trans hfold)
  subst hff
  subst hres
  have hfnodup : (final'.map Prod.fst).Nodup := hnodup (by simp)
  refine ⟨List.sorted_insertionSort durGe final', fun g => ⟨?_, fun d hd => ?_⟩⟩
  · have hperm : ((List.insertionSort durGe final').map Prod.fst).Perm
        (final'.map Prod.fst) := (List.perm_insertionSort durGe final').map Prod.fst
    rw [hperm.mem_iff, hmem g]
    simp
  · have hd' : (g, d) ∈ final' := (List.perm_insertionSort durGe final').mem_iff.1 hd
    have : assocLookup final' g = some d := (assocLookup_eq_some_iff hfnodup g d).2 hd'
    have hlg := hlook g
    rw [this] at hlg
    simpa [assocLookup] using hlg

/-- Witness for C4's general part at the example history: the computed result
is sorted descending by duration. -/
theorem extrema_spec_witness :
    List.Sorted durGe [(GameId.Igdb 2, (2 : Int)), (GameId.Igdb 1, 1)] :=
  (extrema_spec.1 [(0, [GameId.Igdb 1, GameId.Igdb 2]), (1, [GameId.Igdb 2, GameId.Igdb 1]),
      (3, [GameId.Igdb 1, GameId.Igdb 2])] true
    [(GameId.Igdb 2, 2), (GameId.Igdb 1, 1)] (by decide)).1

theorem exists_window_of_lt :
    ∀ (l : List Int), l.Sorted (· ≤ ·) →
      ∀ {d e : Int}, d ∈ l → e ∈ l → d < e → ∃ p ∈ windows2 l, p.1 = d := by
  intro l
  induction l with
  | nil => intro _ d e hd; simp at hd
  | cons a t ih =>
    intro hs d e hd he hlt
    cases t with
    | nil =>
      simp only [List.mem_singleton] at hd he
      subst hd
      subst he
      exact absurd hlt (lt_irrefl _)
    | cons b t' =>
      have hw : windows2 (a :: b :: t') = (a, b) :: windows2 (b :: t') := rfl
      rcases List.mem_cons.1 hd with rfl | hd'
      · exact ⟨(d, b), by rw [hw]; exact List.mem_cons_self _ _, rfl⟩
      · rcases List.mem_cons.1 he with rfl | he'
        · have hle : e ≤ d := (List.sorted_cons.1 hs).1 d hd'
          exact absurd hlt (not_lt.2 hle)
        · obtain ⟨p, hp, hp1⟩ := ih (List.sorted_cons.1 hs).2 hd' he' hlt
          exact ⟨p, by rw [hw]; exact List.mem_cons_of_mem _ hp, hp1⟩

/-- C10: `extrema` has the unstated precondition that every snapshot is
non-empty: a history whose snapshot at some non-latest date is empty makes
the `list[0]` / `list[len - 1]` indexing panic (modelled as `none`), while
with every snapshot non-empty all the loop's lookups and indexings succeed
and `extrema` returns a result. -/
theorem extrema_empty_snapshot_precondition :
    (∀ (lists : ListsMap) (top : Bool) (d : Int),
       (lists.map Prod.fst).Nodup → (d, ([] : Snapshot)) ∈ lists →
       (∃ q ∈ lists, d < q.1) →
       extrema lists top = none) ∧
    (∀ (lists : ListsMap) (top : Bool),
       (∀ p ∈ lists, p.2 ≠ ([] : Snapshot)) →
       ∃ res, extrema lists top = some res) := by
  constructor
  · intro lists top d hnodup hdmem ⟨q, hq, hlt⟩
    have hd : d ∈ datesOf lists := by
      rw [datesOf, List.mem_insertionSort]
      exact List.mem_map_of_mem Prod.fst hdmem
    have he : q.1 ∈ datesOf lists := by
      rw [datesOf, List.mem_insertionSort]
      exact List.mem_map_of_mem Prod.fst hq
    have hsorted : (datesOf lists).Sorted (· ≤ ·) :=
      List.sorted_insertionSort _ _
    obtain ⟨p, hp, hp1⟩ := exists_window_of_lt _ hsorted hd he hlt
    have hlook : assocLookup lists p.1 = some ([] : Snapshot) := by
      rw [hp1]
      exact (assocLookup_eq_some_iff hnodup d []).2 hdmem
    have hfail : extremumAt lists top p.1 = none := by
      rw [extremumAt, hlook]
      cases top <;> rfl
    rw [extrema, foldl_stepExtrema_fail lists top hfail _ hp (some [])]
    rfl
  · intro lists top hne
    have hsucc : ∀ p ∈ windows2 (datesOf lists),
        ∃ g, extremumAt lists top p.1 = some g := by
      intro p hp
      have hp1 : p.1 ∈ lists.map Prod.fst := by
        have := (List.of_mem_zip hp).1
        rwa [datesOf, List.mem_insertionSort] at this
      obtain ⟨v, hv, hvmem⟩ := assocLookup_mem_of_key_mem lists p.1 hp1
      have hvne : v ≠ [] := hne (p.1, v) hvmem
      rw [extremumAt, hv, Option.some_bind]
      cases v with
      | nil => exact absurd rfl hvne
      | cons a t =>
        cases top
        · have hlt : t.length < (a :: t).length := by simp
          refine ⟨(a :: t).get ⟨t.length, hlt⟩, ?_⟩
          rw [if_neg (by simp)]
          have hlen : (a :: t).length - 1 = t.length := by simp
          rw [hlen]
          exact List.getElem?_eq_getElem hlt
        · exact ⟨a, by simp⟩
    obtain ⟨final, hfold, -⟩ :=
      foldl_stepExtrema_some lists top (windows2 (datesOf lists)) [] hsucc
    exact ⟨List.insertionSort durGe final, by rw [extrema, hfold]; rfl⟩

/-- Witness for C10: an empty snapshot at the non-latest date 0 panics (for
both `top` values), while an all-non-empty two-date history completes. -/
theorem extrema_empty_snapshot_precondition_witness :
    extrema [(0, ([] : Snapshot)), (1, [GameId.Igdb 1])] true = none ∧
    extrema [(0, ([] : Snapshot)), (1, [GameId.Igdb 1])] false = none ∧
    ∃ res, extrema [(0, [GameId.Igdb 1]), (1, [GameId.Igdb 2])] false = some res :=
  ⟨extrema_empty_snapshot_precondition.1 [(0, []), (1, [GameId.Igdb 1])] true 0
     (by decide) (by decide) ⟨(1, [GameId.Igdb 1]), by decide, by decide⟩,
   extrema_empty_snapshot_precondition.1 [(0, []), (1, [GameId.Igdb 1])] false 0
     (by decide) (by decide) ⟨(1, [GameId.Igdb 1]), by decide, by decide⟩,
   extrema_empty_snapshot_precondition.2 [(0, [GameId.Igdb 1]), (1, [GameId.Igdb 2])]
     false (by decide)⟩

end TbpViz
